import Mathlib

/-!
# onychat-service: the broadcast coordinator and the connection lifecycle

A shallow embedding of `src/main.go`.

* A value of type `client` (`chan<- string`) is identified by a `Handle`.
  All channels of the program are unbuffered, so what the program observes of
  a channel is the sequence of lines that have been sent on it (each send is
  handed to the receiving `clientWriter` in that order) and whether it has
  been closed.
* `braodcasterSelect` is one iteration of the `for { select { ... } }` loop of
  `braodcaster`; `braodcaster` runs the loop over the events received so far.
* A run-time panic of the Go program (send on a closed channel, close of a
  closed channel) is the result `none`.
* `log.Printf` has no effect on the state and is left out.
-/

namespace Onychat

/-- Identity of a channel value of type `client`. -/
abbrev Handle := Nat

/-- The heap of `client` channels together with the local variable `clients`
of `braodcaster`. -/
structure State where
  /-- The keys of `clients` (`map[client]bool`, used as a set), in no particular
  order; only membership in this list is ever used. -/
  clients : List Handle
  /-- The lines sent so far on each channel, oldest first. -/
  queue : Handle → List String
  /-- Whether `close` has been called on the channel. -/
  closed : Handle → Bool

/-- The value received by the `select` of `braodcaster`, tagged by the channel
it arrived on. -/
inductive Event where
  | messages (msg : String)
  | entering (cli : Handle)
  | leaving (cli : Handle)

/-- State at the start of `braodcaster`: `clients := make(map[client]bool)`;
every channel is as `make(chan string)` leaves it, open with nothing sent. -/
def braodcasterInit : State :=
  { clients := [], queue := fun _ => [], closed := fun _ => false }

/-- The Go statement `cli <- msg`: panics on a closed channel. -/
def chanSend (s : State) (cli : Handle) (msg : String) : Option State :=
  if s.closed cli = true then none
  else some { s with queue := fun c => if c = cli then s.queue c ++ [msg] else s.queue c }

/-- The Go statement `close(cli)`: panics on a closed channel. -/
def chanClose (s : State) (cli : Handle) : Option State :=
  if s.closed cli = true then none
  else some { s with closed := fun c => if c = cli then true else s.closed c }

/-- The loop `for cli := range clients { cli <- msg }` run over the keys in the
order `keys`. -/
def rangeSend (msg : String) (s : State) (keys : List Handle) : Option State :=
  keys.foldlM (fun t cli => chanSend t cli msg) s

/-- The effect of `for cli := range clients { cli <- msg }`, whatever order the
map is iterated in: every key is visited once; a closed key panics. -/
def fanOut (s : State) (msg : String) : Option State :=
  if ∃ cli ∈ s.clients, s.closed cli = true then none
  else some { s with queue := fun c => if c ∈ s.clients then s.queue c ++ [msg] else s.queue c }

/-- One iteration of the `select` of `braodcaster`: `clients[cli] = true` adds
the key unless it is present, `delete(clients, cli)` removes it. -/
def braodcasterSelect (s : State) : Event → Option State
  | .messages msg => fanOut s msg
  | .entering cli => some { s with clients := s.clients.insert cli }
  | .leaving cli => chanClose { s with clients := s.clients.filter (· ≠ cli) } cli

/-- The loop of `braodcaster` over the events `evs`, in the order received; it
stops at the first panic. -/
def braodcaster (s : State) (evs : List Event) : Option State :=
  evs.foldlM braodcasterSelect s

/-- The Go call `fmt.Fprintln(conn, msg)`, `conn` being the bytes written to
the connection so far. -/
def Fprintln (conn : String) (msg : String) : String :=
  conn ++ msg ++ "\n"

/-- The loop `for msg := range ch { fmt.Fprintln(conn, msg) }`, `ch` being the
lines sent on the channel. -/
def clientWriter (conn : String) (ch : List String) : String :=
  ch.foldl Fprintln conn

/-- What `handleConnection` does to the rest of the program, in order. -/
inductive Action where
  /-- The direct send `ch <- line`. -/
  | send (ch : Handle) (line : String)
  /-- A send on `messages`, `entering` or `leaving`. -/
  | event (e : Event)
  /-- The call `conn.Close()`. -/
  | connClose

/-- The loop `for input.Scan() { messages <- who + ": " + input.Text() }`,
`input` being the lines the scanner yields before it stops. -/
def scanLoop (who : String) (input : List String) : List Action :=
  input.map fun text => Action.event (.messages (who ++ ": " ++ text))

/-- The body of `handleConnection` for the channel `ch` made by
`make(chan string)` and the peer address `who`. -/
def handleConnection (who : String) (ch : Handle) (input : List String) : List Action :=
  .send ch ("You are " ++ who)
    :: .event (.messages (who ++ " has arrived"))
    :: .event (.entering ch)
    :: (scanLoop who input
        ++ [.event (.leaving ch), .event (.messages (who ++ " has left")), .connClose])

/-- One action of a `handleConnection` goroutine, as it takes effect. -/
def exec (s : State) : Action → Option State
  | .send ch line => chanSend s ch line
  | .event e => braodcasterSelect s e
  | .connClose => some s

/-- A sequence of actions of the `handleConnection` goroutines, in the order
they take effect; it stops at the first panic. -/
def execAll (s : State) (acts : List Action) : Option State :=
  acts.foldlM exec s

/-- Whether no event of the sequence is an `entering` or a `leaving` of a handle
that is in `left` or that an earlier `leaving` of the sequence has removed. -/
def leftHandlesUnused (left : List Handle) : List Event → Bool
  | [] => true
  | .messages _ :: evs => leftHandlesUnused left evs
  | .entering cli :: evs => decide (cli ∉ left) && leftHandlesUnused left evs
  | .leaving cli :: evs => decide (cli ∉ left) && leftHandlesUnused (cli :: left) evs

/-- Whether the sequence of actions follows the protocol of `handleConnection`
for every handle, `entered` and `left` being the handles registered and removed
before it: the direct send on a channel comes before its `entering`, a channel
is sent on `entering` at most once and never after its `leaving`, and on
`leaving` at most once and only after its `entering`. -/
def followsProtocol (entered left : List Handle) : List Action → Bool
  | [] => true
  | .send ch _ :: acts =>
      decide (ch ∉ entered) && decide (ch ∉ left) && followsProtocol entered left acts
  | .event (.messages _) :: acts => followsProtocol entered left acts
  | .event (.entering ch) :: acts =>
      decide (ch ∉ entered) && decide (ch ∉ left) && followsProtocol (ch :: entered) left acts
  | .event (.leaving ch) :: acts =>
      decide (ch ∈ entered) && decide (ch ∉ left) && followsProtocol entered (ch :: left) acts
  | .connClose :: acts => followsProtocol entered left acts

/-- Invariant of the system under the protocol: every registered handle is open
and is one of `entered`, and every closed handle is one of `left`. -/
def Safe (entered left : List Handle) (s : State) : Prop :=
  (∀ c ∈ s.clients, s.closed c = false ∧ c ∈ entered) ∧
  ∀ c, s.closed c = true → c ∈ left

/-! ## Basic facts -/

theorem braodcaster_cons (s : State) (e : Event) (evs : List Event) :
    braodcaster s (e :: evs) = (braodcasterSelect s e).bind fun t => braodcaster t evs :=
  rfl

theorem execAll_cons (s : State) (a : Action) (acts : List Action) :
    execAll s (a :: acts) = (exec s a).bind fun t => execAll t acts :=
  rfl

theorem execAll_append (acts acts1 : List Action) :
    ∀ s : State, execAll s (acts ++ acts1) = (execAll s acts).bind fun t => execAll t acts1 := by
  induction acts with
  | nil => intro s; rfl
  | cons a acts ih =>
    intro s
    rw [List.cons_append, execAll_cons, execAll_cons]
    cases exec s a with
    | none => rfl
    | some t => exact ih t

theorem fanOut_open {s : State} (msg : String)
    (h : ∀ cli ∈ s.clients, s.closed cli = false) :
    fanOut s msg = some { s with queue := fun c =>
      if c ∈ s.clients then s.queue c ++ [msg] else s.queue c } :=
  if_neg fun ⟨cli, hmem, hc⟩ => Bool.false_ne_true ((h cli hmem).symm.trans hc)

theorem fanOut_some {s t : State} {msg : String} (h : fanOut s msg = some t) :
    (∀ cli ∈ s.clients, s.closed cli = false) ∧
    t = { s with queue := fun c => if c ∈ s.clients then s.queue c ++ [msg] else s.queue c } := by
  have hopen : ∀ cli ∈ s.clients, s.closed cli = false := by
    intro cli hmem
    cases hc : s.closed cli with
    | false => rfl
    | true =>
      have hnone : fanOut s msg = none := if_pos ⟨cli, hmem, hc⟩
      rw [hnone] at h
      cases h
  rw [fanOut_open msg hopen] at h
  exact ⟨hopen, (Option.some.inj h).symm⟩

theorem chanSend_open {s : State} {cli : Handle} (msg : String) (h : s.closed cli = false) :
    chanSend s cli msg
      = some { s with queue := fun c => if c = cli then s.queue c ++ [msg] else s.queue c } :=
  if_neg fun hc => Bool.false_ne_true (h.symm.trans hc)

theorem chanClose_open {s : State} {cli : Handle} (h : s.closed cli = false) :
    chanClose s cli = some { s with closed := fun c => if c = cli then true else s.closed c } :=
  if_neg fun hc => Bool.false_ne_true (h.symm.trans hc)

theorem chanClose_some {s t : State} {cli : Handle} (h : chanClose s cli = some t) :
    s.closed cli = false ∧
    t = { s with closed := fun c => if c = cli then true else s.closed c } := by
  cases hc : s.closed cli with
  | true =>
    have hnone : chanClose s cli = none := if_pos hc
    rw [hnone] at h
    cases h
  | false =>
    rw [chanClose_open hc] at h
    exact ⟨rfl, (Option.some.inj h).symm⟩

theorem mem_filter_ne {l : List Handle} {c cli : Handle} :
    c ∈ l.filter (· ≠ cli) ↔ c ≠ cli ∧ c ∈ l := by
  rw [List.mem_filter, decide_eq_true_iff]
  exact And.comm

theorem filter_ne_of_not_mem {l : List Handle} {cli : Handle} (h : cli ∉ l) :
    l.filter (· ≠ cli) = l :=
  List.filter_eq_self.2 fun _ hc => decide_eq_true fun e => h (e ▸ hc)

/-- The summary `fanOut` is the loop `rangeSend` run over any enumeration of the
key set without repetition: the iteration order of the map does not matter. -/
theorem rangeSend_eq_fanOut (msg : String) (s : State) (keys : List Handle)
    (hnodup : keys.Nodup) (hkeys : ∀ cli, cli ∈ keys ↔ cli ∈ s.clients) :
    rangeSend msg s keys = fanOut s msg := by
  have key : ∀ (keys : List Handle) (t : State), keys.Nodup →
      rangeSend msg t keys =
        if ∃ cli ∈ keys, t.closed cli = true then none
        else some { t with queue := fun c =>
          if c ∈ keys then t.queue c ++ [msg] else t.queue c } := by
    intro keys
    induction keys with
    | nil =>
      intro t _
      have hne : ¬ ∃ cli ∈ ([] : List Handle), t.closed cli = true := by
        rintro ⟨_, hc, _⟩
        cases hc
      rw [if_neg hne]
      show some t = some _
      congr 1
    | cons k keys ih =>
      intro t hnd
      have hk : k ∉ keys := (List.nodup_cons.1 hnd).1
      show (chanSend t k msg).bind (fun u => rangeSend msg u keys) = _
      cases hkc : t.closed k with
      | true =>
        have hnone : chanSend t k msg = none := if_pos hkc
        rw [hnone, if_pos ⟨k, List.mem_cons_self _ _, hkc⟩]
        rfl
      | false =>
        rw [chanSend_open msg hkc, Option.some_bind, ih _ (List.nodup_cons.1 hnd).2]
        by_cases hex : ∃ cli ∈ keys, t.closed cli = true
        · have hex2 : ∃ cli ∈ k :: keys, t.closed cli = true := by
            obtain ⟨c, hc, hcl⟩ := hex
            exact ⟨c, List.mem_cons_of_mem _ hc, hcl⟩
          rw [if_pos hex, if_pos hex2]
        · have hex2 : ¬ ∃ cli ∈ k :: keys, t.closed cli = true := by
            rintro ⟨c, hc, hcl⟩
            rcases List.mem_cons.1 hc with rfl | hc
            · exact Bool.false_ne_true (hkc.symm.trans hcl)
            · exact hex ⟨c, hc, hcl⟩
          rw [if_neg hex, if_neg hex2]
          congr 2
          funext c
          by_cases hck : c = k
          · subst hck
            simp only [hk, if_false, if_true, List.mem_cons, true_or]
          · simp only [hck, if_false, List.mem_cons, false_or]
  rw [key keys s hnodup]
  have hiff : (∃ cli ∈ keys, s.closed cli = true) ↔ ∃ cli ∈ s.clients, s.closed cli = true :=
    ⟨fun ⟨c, hc, hcl⟩ => ⟨c, (hkeys c).1 hc, hcl⟩, fun ⟨c, hc, hcl⟩ => ⟨c, (hkeys c).2 hc, hcl⟩⟩
  by_cases hex : ∃ cli ∈ keys, s.closed cli = true
  · rw [if_pos hex]
    exact (if_pos (hiff.1 hex)).symm
  · rw [if_neg hex]
    refine Eq.trans ?_ (if_neg fun h => hex (hiff.2 h)).symm
    congr 2
    funext c
    simp only [hkeys c]

/-! ## C1: fan-out of one broadcast -/

/-- C1 (as amended): in every coordinator state in which each handle of the
Client Set has an open queue, processing `broadcast(m)` succeeds, appends exactly
one copy of `m` to the queue of every handle in the Client Set, appends nothing
to the queue of any other handle, and leaves the Client Set and the open/closed
status of every queue unchanged. -/
theorem broadcast_delivers_once_to_each_client (s : State) (m : String)
    (hopen : ∀ cli ∈ s.clients, s.closed cli = false) :
    ∃ s1, braodcasterSelect s (.messages m) = some s1 ∧
      s1.clients = s.clients ∧
      (∀ cli ∈ s.clients, s1.queue cli = s.queue cli ++ [m]) ∧
      (∀ cli, cli ∉ s.clients → s1.queue cli = s.queue cli) ∧
      s1.closed = s.closed :=
  ⟨_, fanOut_open m hopen, rfl, fun _ hmem => if_pos hmem, fun _ hmem => if_neg hmem, rfl⟩

/-- Witness for C1: two registered handles with open queues, one of which has
already been sent a line. -/
theorem broadcast_delivers_once_to_each_client_witness :
    ∃ s1, braodcasterSelect
        { clients := [0, 1], queue := fun c => if c = 0 then ["x"] else [],
          closed := fun _ => false } (.messages "m") = some s1 ∧
      s1.clients = [0, 1] ∧
      (∀ cli ∈ [0, 1], s1.queue cli = (if cli = 0 then ["x"] else []) ++ ["m"]) ∧
      (∀ cli, cli ∉ [0, 1] → s1.queue cli = if cli = 0 then ["x"] else []) ∧
      s1.closed = fun _ => false :=
  broadcast_delivers_once_to_each_client
    { clients := [0, 1], queue := fun c => if c = 0 then ["x"] else [],
      closed := fun _ => false } "m" (fun _ _ => rfl)

/-- C1 (counterexample): after `leave(0)` and then `entry(0)` the Client Set
holds handle 0 whose queue is closed; in that coordinator state `broadcast("m")`
panics (send on a closed channel), so nothing is delivered to handle 0. -/
theorem broadcast_to_closed_client_panics :
    ∃ s, braodcaster braodcasterInit [.leaving 0, .entering 0] = some s ∧
      0 ∈ s.clients ∧ s.closed 0 = true ∧
      braodcasterSelect s (.messages "m") = none :=
  ⟨_, rfl, by decide, rfl, rfl⟩

/-! ## C7: `leave` of a handle that is not in the Client Set -/

/-- C7 (as amended): for every coordinator state and every handle `h` that is
not in the Client Set and whose queue is open, processing `leave(h)` succeeds and
leaves the Client Set, the contents of every queue and the open/closed status of
every other queue unchanged, but closes the queue of `h`; every later sequence of
events that does not name `h` is processed exactly as it would have been without
the `leave`, so every later broadcast reaches each remaining handle. -/
theorem leave_of_absent_handle_only_closes_it (s : State) (h : Handle)
    (habs : h ∉ s.clients) (hopen : s.closed h = false) :
    ∃ s1, braodcasterSelect s (.leaving h) = some s1 ∧
      s1.clients = s.clients ∧ s1.queue = s.queue ∧
      s1.closed h = true ∧ (∀ c, c ≠ h → s1.closed c = s.closed c) ∧
      ∀ evs : List Event, Event.entering h ∉ evs → Event.leaving h ∉ evs →
        (braodcaster s1 evs).map (fun t => (t.clients, t.queue))
          = (braodcaster s evs).map (fun t => (t.clients, t.queue)) := by
  have key : ∀ (evs : List Event), Event.entering h ∉ evs → Event.leaving h ∉ evs →
      ∀ (cl : List Handle) (q : Handle → List String) (cd cd1 : Handle → Bool),
        h ∉ cl → (∀ c, c ≠ h → cd1 c = cd c) →
        (braodcaster { clients := cl, queue := q, closed := cd1 } evs).map
            (fun t => (t.clients, t.queue))
          = (braodcaster { clients := cl, queue := q, closed := cd } evs).map
            (fun t => (t.clients, t.queue)) := by
    intro evs
    induction evs with
    | nil => intro _ _ cl q cd cd1 _ _; rfl
    | cons e evs ih =>
      intro hent hlv cl q cd cd1 hab hcd
      have hent1 : Event.entering h ∉ evs := fun hm => hent (List.mem_cons_of_mem _ hm)
      have hlv1 : Event.leaving h ∉ evs := fun hm => hlv (List.mem_cons_of_mem _ hm)
      have hmem : ∀ c, c ∈ cl → cd1 c = cd c := fun c hc => hcd c (fun e => hab (e ▸ hc))
      rw [braodcaster_cons, braodcaster_cons]
      cases e with
      | messages m =>
        show Option.map _ ((fanOut _ m).bind _) = Option.map _ ((fanOut _ m).bind _)
        by_cases hex : ∃ c ∈ cl, cd c = true
        · obtain ⟨c, hc, hcl⟩ := hex
          have h1 : fanOut { clients := cl, queue := q, closed := cd } m = none :=
            if_pos ⟨c, hc, hcl⟩
          have h2 : fanOut { clients := cl, queue := q, closed := cd1 } m = none :=
            if_pos ⟨c, hc, (hmem c hc).trans hcl⟩
          rw [h1, h2]
        · have hop : ∀ c ∈ cl, cd c = false := by
            intro c hc
            cases hcc : cd c with
            | false => rfl
            | true => exact absurd ⟨c, hc, hcc⟩ hex
          have h1 : fanOut { clients := cl, queue := q, closed := cd } m = some _ :=
            fanOut_open m hop
          have h2 : fanOut { clients := cl, queue := q, closed := cd1 } m = some _ :=
            fanOut_open m (fun c hc => (hmem c hc).trans (hop c hc))
          rw [h1, h2]
          exact ih hent1 hlv1 _ _ _ _ hab hcd
      | entering c =>
        have hne : h ≠ c := fun e => hent (e ▸ List.mem_cons_self _ _)
        refine ih hent1 hlv1 _ _ _ _ ?_ hcd
        intro hm
        rcases List.mem_insert_iff.1 hm with e | hm
        · exact hne e
        · exact hab hm
      | leaving c =>
        have hne : c ≠ h := fun e => hlv (e ▸ List.mem_cons_self _ _)
        show Option.map _ ((chanClose _ c).bind _) = Option.map _ ((chanClose _ c).bind _)
        cases hcc : cd c with
        | true =>
          have h1 : chanClose { clients := cl.filter (· ≠ c), queue := q, closed := cd } c
              = none := if_pos hcc
          have h2 : chanClose { clients := cl.filter (· ≠ c), queue := q, closed := cd1 } c
              = none := if_pos ((hcd c hne).trans hcc)
          rw [h1, h2]
        | false =>
          have h1 : chanClose { clients := cl.filter (· ≠ c), queue := q, closed := cd } c
              = some _ := chanClose_open hcc
          have h2 : chanClose { clients := cl.filter (· ≠ c), queue := q, closed := cd1 } c
              = some _ := chanClose_open ((hcd c hne).trans hcc)
          rw [h1, h2]
          refine ih hent1 hlv1 _ _ _ _ (fun hm => hab (mem_filter_ne.1 hm).2) ?_
          intro c1 hc1
          show (if c1 = c then true else cd1 c1) = if c1 = c then true else cd c1
          rw [hcd c1 hc1]
  refine ⟨_, chanClose_open (s := { s with clients := s.clients.filter (· ≠ h) }) hopen,
    filter_ne_of_not_mem habs, rfl, if_pos rfl, fun c hc => if_neg hc, ?_⟩
  intro evs hent hlv
  show Option.map _ (braodcaster
    ⟨s.clients.filter (· ≠ h), s.queue, fun c => if c = h then true else s.closed c⟩ evs) = _
  rw [filter_ne_of_not_mem habs]
  exact key evs hent hlv s.clients s.queue s.closed _ habs (fun c hc => if_neg hc)

/-- Witness for C7: handle 1 is absent from the Client Set `[0]` and open. -/
theorem leave_of_absent_handle_only_closes_it_witness :
    ∃ s1, braodcasterSelect
        { clients := [0], queue := fun _ => [], closed := fun _ => false } (.leaving 1)
          = some s1 ∧
      s1.clients = [0] ∧ s1.queue = (fun _ => []) ∧
      s1.closed 1 = true ∧ (∀ c, c ≠ 1 → s1.closed c = false) ∧
      ∀ evs : List Event, Event.entering 1 ∉ evs → Event.leaving 1 ∉ evs →
        (braodcaster s1 evs).map (fun t => (t.clients, t.queue))
          = (braodcaster
              { clients := [0], queue := fun _ => [], closed := fun _ => false } evs).map
              (fun t => (t.clients, t.queue)) :=
  leave_of_absent_handle_only_closes_it
    { clients := [0], queue := fun _ => [], closed := fun _ => false } 1
    (by decide) rfl

/-- C7 (counterexample): in the initial state handle 0 is not in the Client Set
and its queue is open; processing `leave(0)` closes that queue, so the state is
not left unchanged. -/
theorem leave_of_absent_handle_changes_state :
    (0 : Handle) ∉ braodcasterInit.clients ∧ braodcasterInit.closed 0 = false ∧
    ∃ s1, braodcasterSelect braodcasterInit (.leaving 0) = some s1 ∧ s1.closed 0 = true :=
  ⟨by decide, rfl, _, rfl, rfl⟩

/-! ## C8: registering the same handle twice -/

/-- C8 (as amended): the Client Set is a set, so duplicate registration is
deduplicated: in every state whose registered handles and `h` have open queues,
after `entry(h)` is processed twice a single `broadcast(m)` results in exactly
one delivery of `m` to `h`. -/
theorem duplicate_entry_single_delivery (s : State) (h : Handle) (m : String)
    (hopen : ∀ c ∈ s.clients, s.closed c = false) (hh : s.closed h = false) :
    ∃ s1, braodcaster s [.entering h, .entering h, .messages m] = some s1 ∧
      s1.clients = s.clients.insert h ∧
      s1.queue h = s.queue h ++ [m] := by
  have hins : (s.clients.insert h).insert h = s.clients.insert h :=
    List.insert_of_mem (List.mem_insert_self _ _)
  have hopen1 : ∀ c ∈ s.clients.insert h, s.closed c = false := by
    intro c hc
    rcases List.mem_insert_iff.1 hc with rfl | hc
    · exact hh
    · exact hopen c hc
  have hrun : braodcaster s [.entering h, .entering h, .messages m]
      = (fanOut { s with clients := (s.clients.insert h).insert h } m).bind
          fun t => braodcaster t [] := rfl
  rw [hrun, hins, fanOut_open (s := { s with clients := s.clients.insert h }) m hopen1]
  exact ⟨_, rfl, rfl, if_pos (List.mem_insert_self _ _)⟩

/-- Witness for C8: a second handle is already registered. -/
theorem duplicate_entry_single_delivery_witness :
    ∃ s1, braodcaster { clients := [1], queue := fun _ => ["x"], closed := fun _ => false }
        [.entering 0, .entering 0, .messages "m"] = some s1 ∧
      s1.clients = [1].insert 0 ∧ s1.queue 0 = ["x"] ++ ["m"] :=
  duplicate_entry_single_delivery
    { clients := [1], queue := fun _ => ["x"], closed := fun _ => false } 0 "m"
    (fun _ _ => rfl) rfl

/-- C8 (counterexample): from the initial state, `entry(0)`, `entry(0)`,
`broadcast("m")` puts `"m"` on the queue of handle 0 once, not twice. -/
theorem duplicate_entry_not_two_deliveries :
    (braodcaster braodcasterInit [.entering 0, .entering 0, .messages "m"]).map
        (fun s => s.queue 0) = some ["m"] ∧
    (braodcaster braodcasterInit [.entering 0, .entering 0, .messages "m"]).map
        (fun s => s.queue 0) ≠ some ["m", "m"] := by
  decide

/-! ## C3: the sender of a line is one of its recipients -/

/-- C3 (as amended): `handleConnection` registers its handle before it forwards
any inbound line, and the broadcast of `who ++ ": " ++ L` for an inbound line `L`
is delivered to every handle in the Client Set, the sender's own handle
included: a registered client receives its own line back, as does every other
connected client. -/
theorem own_line_is_delivered_to_sender (s : State) (who : String) (ch : Handle)
    (pre post : List String) (L : String)
    (hreg : ch ∈ s.clients) (hopen : ∀ c ∈ s.clients, s.closed c = false) :
    (∃ before after, handleConnection who ch (pre ++ L :: post)
        = before ++ Action.event (.messages (who ++ ": " ++ L)) :: after ∧
      Action.event (.entering ch) ∈ before) ∧
    ∃ s1, exec s (.event (.messages (who ++ ": " ++ L))) = some s1 ∧
      s1.queue ch = s.queue ch ++ [who ++ ": " ++ L] ∧
      ∀ c ∈ s.clients, s1.queue c = s.queue c ++ [who ++ ": " ++ L] := by
  refine ⟨⟨Action.send ch ("You are " ++ who) :: .event (.messages (who ++ " has arrived"))
      :: .event (.entering ch) :: scanLoop who pre,
    scanLoop who post
      ++ [.event (.leaving ch), .event (.messages (who ++ " has left")), .connClose], ?_,
    List.mem_cons_of_mem _ (List.mem_cons_of_mem _ (List.mem_cons_self _ _))⟩,
    _, fanOut_open (who ++ ": " ++ L) hopen, if_pos hreg, fun c hc => if_pos hc⟩
  show _ :: _ :: _ :: (List.map _ (pre ++ L :: post) ++ _) = _
  rw [List.map_append, List.map_cons, List.append_assoc]
  rfl

/-- Witness for C3: two registered clients, the sender's second line. -/
theorem own_line_is_delivered_to_sender_witness :
    (∃ before after, handleConnection "b" 1 (["hi"] ++ "yo" :: [])
        = before ++ Action.event (.messages ("b" ++ ": " ++ "yo")) :: after ∧
      Action.event (.entering 1) ∈ before) ∧
    ∃ s1, exec { clients := [0, 1], queue := fun _ => [], closed := fun _ => false }
        (.event (.messages ("b" ++ ": " ++ "yo"))) = some s1 ∧
      s1.queue 1 = [] ++ ["b" ++ ": " ++ "yo"] ∧
      ∀ c ∈ [0, 1], s1.queue c = [] ++ ["b" ++ ": " ++ "yo"] :=
  own_line_is_delivered_to_sender
    { clients := [0, 1], queue := fun _ => [], closed := fun _ => false }
    "b" 1 ["hi"] [] "yo" (by decide) (fun _ _ => rfl)

/-- C3 (counterexample): client `a` (handle 0) connects, then client `b`
(handle 1) connects and sends the line `hi`; the line `b: hi` is put on the queue
of handle 1, the sender's own handle, as well as on the queue of handle 0. -/
theorem sender_receives_own_line_back :
    (execAll braodcasterInit
        ((handleConnection "a" 0 []).take 3 ++ (handleConnection "b" 1 ["hi"]).take 4)).map
      (fun s => (s.queue 0, s.queue 1))
    = some (["You are a", "b has arrived", "b: hi"], ["You are b", "b: hi"]) := by
  decide

/-! ## C2: the Client Set invariant -/

/-- C2: starting from an empty Client Set, after the coordinator has processed
the event sequence `evs`, a handle `h` is in the Client Set if and only if `evs`
contains an `entry(h)` event with no later `leave(h)` event; and a broadcast
event never changes the Client Set. -/
theorem client_set_invariant (s0 s : State) (evs : List Event) (h : Handle)
    (hempty : s0.clients = []) (hrun : braodcaster s0 evs = some s) :
    (h ∈ s.clients ↔
      ∃ pre post, evs = pre ++ Event.entering h :: post ∧ Event.leaving h ∉ post) ∧
    ∀ (t t1 : State) (m : String),
      braodcasterSelect t (.messages m) = some t1 → t1.clients = t.clients := by
  have hmsg : ∀ (t t1 : State) (m : String),
      braodcasterSelect t (.messages m) = some t1 → t1.clients = t.clients := by
    intro t t1 m ht
    rw [(fanOut_some ht).2]
  have hsplit : ∀ (e : Event) (evs : List Event),
      (∃ pre post, e :: evs = pre ++ Event.entering h :: post ∧ Event.leaving h ∉ post) ↔
        (e = Event.entering h ∧ Event.leaving h ∉ evs) ∨
        ∃ pre post, evs = pre ++ Event.entering h :: post ∧ Event.leaving h ∉ post := by
    intro e evs
    constructor
    · rintro ⟨pre, post, heq, hpost⟩
      cases pre with
      | nil =>
        rw [List.nil_append, List.cons.injEq] at heq
        exact Or.inl ⟨heq.1, heq.2 ▸ hpost⟩
      | cons p pre =>
        rw [List.cons_append, List.cons.injEq] at heq
        exact Or.inr ⟨pre, post, heq.2, hpost⟩
    · rintro (⟨rfl, hpost⟩ | ⟨pre, post, rfl, hpost⟩)
      · exact ⟨[], evs, rfl, hpost⟩
      · exact ⟨e :: pre, post, rfl, hpost⟩
  have key : ∀ (evs : List Event) (s0 s : State), braodcaster s0 evs = some s →
      (h ∈ s.clients ↔
        (∃ pre post, evs = pre ++ Event.entering h :: post ∧ Event.leaving h ∉ post) ∨
        (h ∈ s0.clients ∧ Event.leaving h ∉ evs)) := by
    intro evs
    induction evs with
    | nil =>
      intro s0 s hrun
      cases Option.some.inj hrun
      constructor
      · exact fun hm => Or.inr ⟨hm, List.not_mem_nil _⟩
      · rintro (⟨pre, post, heq, _⟩ | ⟨hm, _⟩)
        · cases pre <;> cases heq
        · exact hm
    | cons e evs ih =>
      intro s0 s hrun
      rw [braodcaster_cons] at hrun
      obtain ⟨s1, hstep, hrest⟩ := Option.bind_eq_some.1 hrun
      rw [ih s1 s hrest, hsplit]
      generalize (∃ pre post, evs = pre ++ Event.entering h :: post ∧ Event.leaving h ∉ post)
        = A
      cases e with
      | messages m =>
        have hne1 : Event.messages m ≠ Event.entering h := fun hc => by cases hc
        have hne2 : Event.leaving h ≠ Event.messages m := fun hc => by cases hc
        rw [hmsg s0 s1 m hstep, List.mem_cons]
        tauto
      | entering c =>
        have hcl : s1.clients = s0.clients.insert c := by cases Option.some.inj hstep; rfl
        have hne : Event.leaving h ≠ Event.entering c := fun hc => by cases hc
        have hinj : Event.entering c = Event.entering h ↔ h = c :=
          ⟨fun hc => by cases hc; rfl, fun hc => by rw [hc]⟩
        rw [hcl, List.mem_insert_iff, List.mem_cons, hinj]
        tauto
      | leaving c =>
        have hcl : s1.clients = s0.clients.filter (· ≠ c) := by rw [(chanClose_some hstep).2]
        have hne : Event.leaving c ≠ Event.entering h := fun hc => by cases hc
        have hinj : Event.leaving h = Event.leaving c ↔ h = c :=
          ⟨fun hc => by cases hc; rfl, fun hc => by rw [hc]⟩
        rw [hcl, mem_filter_ne, List.mem_cons, hinj]
        tauto
  refine ⟨?_, hmsg⟩
  rw [key evs s0 s hrun, hempty]
  exact ⟨fun hm => hm.resolve_right fun hc => List.not_mem_nil _ hc.1, Or.inl⟩

/-- Witness for C2: handle 1 is registered and never removed, handle 0 is
registered and removed. -/
theorem client_set_invariant_witness :
    ∃ s, braodcaster braodcasterInit
        [.entering 0, .messages "m", .entering 1, .leaving 0] = some s ∧
      (1 ∈ s.clients ↔
        ∃ pre post, [Event.entering 0, .messages "m", .entering 1, .leaving 0]
          = pre ++ Event.entering 1 :: post ∧ Event.leaving 1 ∉ post) ∧
      ∀ (t t1 : State) (m : String),
        braodcasterSelect t (.messages m) = some t1 → t1.clients = t.clients :=
  ⟨_, rfl, client_set_invariant braodcasterInit _
    [.entering 0, .messages "m", .entering 1, .leaving 0] 1 rfl rfl⟩

/-! ## C9: when the coordinator panics -/

/-- C9 (as amended): starting from the initial state, every finite sequence of
entry/leave/broadcast events in which no `entry(h)` and no `leave(h)` comes after
a `leave(h)` of the same handle is processed to the end without a panic, and
afterwards every handle in the Client Set has an open queue. This covers `leave`
of a handle that is not in the Client Set; it does not cover a repeated `leave`
of the same handle or an `entry` of a handle after its `leave`. -/
theorem coordinator_never_panics_without_reuse (evs : List Event)
    (hev : leftHandlesUnused [] evs = true) :
    ∃ s, braodcaster braodcasterInit evs = some s ∧ ∀ c ∈ s.clients, s.closed c = false := by
  have key : ∀ (evs : List Event) (left : List Handle) (s : State),
      (∀ c ∈ s.clients, s.closed c = false) → (∀ c, s.closed c = true → c ∈ left) →
      leftHandlesUnused left evs = true →
      ∃ s1, braodcaster s evs = some s1 ∧ ∀ c ∈ s1.clients, s1.closed c = false := by
    intro evs
    induction evs with
    | nil => intro left s h1 _ _; exact ⟨s, rfl, h1⟩
    | cons e evs ih =>
      intro left s h1 h2 hev
      have hopen : ∀ c, c ∉ left → s.closed c = false := by
        intro c hc
        cases hcl : s.closed c with
        | false => rfl
        | true => exact absurd (h2 c hcl) hc
      rw [braodcaster_cons]
      cases e with
      | messages m =>
        have hstep : braodcasterSelect s (.messages m) = some _ := fanOut_open m h1
        rw [hstep]
        exact ih left _ h1 h2 hev
      | entering cli =>
        have hev1 : (decide (cli ∉ left) && leftHandlesUnused left evs) = true := hev
        rw [Bool.and_eq_true, decide_eq_true_iff] at hev1
        refine ih left { s with clients := s.clients.insert cli } ?_ h2 hev1.2
        intro c hc
        rcases List.mem_insert_iff.1 hc with rfl | hc
        · exact hopen _ hev1.1
        · exact h1 c hc
      | leaving cli =>
        have hev1 : (decide (cli ∉ left) && leftHandlesUnused (cli :: left) evs) = true := hev
        rw [Bool.and_eq_true, decide_eq_true_iff] at hev1
        have hstep : braodcasterSelect s (.leaving cli) = some _ :=
          chanClose_open (s := { s with clients := s.clients.filter (· ≠ cli) })
            (hopen _ hev1.1)
        rw [hstep]
        refine ih (cli :: left) _ ?_ ?_ hev1.2
        · intro c hc
          have hne : c ≠ cli := (mem_filter_ne.1 hc).1
          exact (if_neg hne).trans (h1 c (mem_filter_ne.1 hc).2)
        · intro c hc
          by_cases hne : c = cli
          · exact hne ▸ List.mem_cons_self _ _
          · exact List.mem_cons_of_mem _ (h2 c ((if_neg hne).symm.trans hc))
  exact key evs [] braodcasterInit (fun _ hc => absurd hc (List.not_mem_nil _))
    (fun _ hc => absurd hc Bool.false_ne_true) hev

/-- Witness for C9: a `leave` of a handle that was never registered, a second
registration of a live handle and a broadcast are all processed. -/
theorem coordinator_never_panics_without_reuse_witness :
    ∃ s, braodcaster braodcasterInit
        [.leaving 2, .entering 0, .entering 0, .messages "m", .leaving 0, .entering 1,
         .messages "n"] = some s ∧
      ∀ c ∈ s.clients, s.closed c = false :=
  coordinator_never_panics_without_reuse
    [.leaving 2, .entering 0, .entering 0, .messages "m", .leaving 0, .entering 1,
     .messages "n"] (by decide)

/-- C9 (counterexample): a repeated `leave(0)` panics (close of a closed
channel), and so does a broadcast after `entry(0)` has followed `leave(0)` (send
on a closed channel). -/
theorem coordinator_panics_on_reuse :
    braodcaster braodcasterInit [.entering 0, .leaving 0, .leaving 0] = none ∧
    braodcaster braodcasterInit [.entering 0, .leaving 0, .entering 0, .messages "m"] = none :=
  ⟨rfl, rfl⟩

/-! ## C10 and C4: safety under the protocol of `handleConnection` -/

/-- A sequence of actions that follows the protocol is performed without panic
from any state satisfying the invariant, and the invariant holds again
afterwards, for the handles registered and removed by then; whatever follows the
sequence is checked against those. -/
theorem execAll_safe (acts : List Action) :
    ∀ (entered left : List Handle) (s : State) (rest : List Action),
      Safe entered left s → followsProtocol entered left (acts ++ rest) = true →
      ∃ s1 entered1 left1, execAll s acts = some s1 ∧ Safe entered1 left1 s1 ∧
        followsProtocol entered1 left1 rest = true ∧ ∀ c ∈ entered, c ∈ entered1 := by
  induction acts with
  | nil => intro entered left s rest hs hp; exact ⟨s, entered, left, rfl, hs, hp, fun _ hc => hc⟩
  | cons a acts ih =>
    intro entered left s rest hs hp
    obtain ⟨h1, h2⟩ := hs
    have hopen : ∀ c, c ∉ left → s.closed c = false := by
      intro c hc
      cases hcl : s.closed c with
      | false => rfl
      | true => exact absurd (h2 c hcl) hc
    rw [execAll_cons]
    cases a with
    | send ch line =>
      have hp1 : (decide (ch ∉ entered) && decide (ch ∉ left)
          && followsProtocol entered left (acts ++ rest)) = true := hp
      rw [Bool.and_eq_true, Bool.and_eq_true, decide_eq_true_iff, decide_eq_true_iff] at hp1
      have hstep : exec s (.send ch line) = some _ := chanSend_open line (hopen ch hp1.1.2)
      rw [hstep]
      exact ih entered left _ rest ⟨h1, h2⟩ hp1.2
    | connClose => exact ih entered left s rest ⟨h1, h2⟩ hp
    | event e =>
      cases e with
      | messages m =>
        have hstep : exec s (.event (.messages m)) = some _ :=
          fanOut_open m fun c hc => (h1 c hc).1
        rw [hstep]
        exact ih entered left _ rest ⟨h1, h2⟩ hp
      | entering ch =>
        have hp1 : (decide (ch ∉ entered) && decide (ch ∉ left)
            && followsProtocol (ch :: entered) left (acts ++ rest)) = true := hp
        rw [Bool.and_eq_true, Bool.and_eq_true, decide_eq_true_iff, decide_eq_true_iff] at hp1
        obtain ⟨s1, e1, l1, hrun, hs1, hrest, hsub⟩ :=
          ih (ch :: entered) left { s with clients := s.clients.insert ch } rest
            ⟨fun c hc => by
              rcases List.mem_insert_iff.1 hc with rfl | hc
              · exact ⟨hopen _ hp1.1.2, List.mem_cons_self _ _⟩
              · exact ⟨(h1 c hc).1, List.mem_cons_of_mem _ (h1 c hc).2⟩, h2⟩ hp1.2
        exact ⟨s1, e1, l1, hrun, hs1, hrest, fun c hc => hsub c (List.mem_cons_of_mem _ hc)⟩
      | leaving ch =>
        have hp1 : (decide (ch ∈ entered) && decide (ch ∉ left)
            && followsProtocol entered (ch :: left) (acts ++ rest)) = true := hp
        rw [Bool.and_eq_true, Bool.and_eq_true, decide_eq_true_iff, decide_eq_true_iff] at hp1
        have hstep : exec s (.event (.leaving ch)) = some _ :=
          chanClose_open (s := { s with clients := s.clients.filter (· ≠ ch) })
            (hopen ch hp1.1.2)
        rw [hstep]
        refine ih entered (ch :: left) _ rest ⟨?_, ?_⟩ hp1.2
        · intro c hc
          have hne : c ≠ ch := (mem_filter_ne.1 hc).1
          exact ⟨(if_neg hne).trans (h1 c (mem_filter_ne.1 hc).2).1, (h1 c (mem_filter_ne.1 hc).2).2⟩
        · intro c hc
          by_cases hne : c = ch
          · exact hne ▸ List.mem_cons_self _ _
          · exact List.mem_cons_of_mem _ (h2 c ((if_neg hne).symm.trans hc))

theorem safe_init : Safe [] [] braodcasterInit :=
  ⟨fun _ hc => absurd hc (List.not_mem_nil _), fun _ hc => absurd hc Bool.false_ne_true⟩

/-- C10: every sequence of actions that follows the protocol of
`handleConnection` (for each handle: the direct send before its entry, at most
one entry, at most one leave, the leave only after the entry) is performed from
the initial state without a panic, and in the state reached each handle in the
Client Set has an open queue; each `leave(h)` finds the queue of `h` open (it is
closed only once), and after `leave(h)` the handle is out of the Client Set and
nothing further is enqueued on `h`, the departure line of its own session
included. -/
theorem protocol_safety (acts : List Action) (hproto : followsProtocol [] [] acts = true) :
    ∃ s, execAll braodcasterInit acts = some s ∧
      (∀ c ∈ s.clients, s.closed c = false) ∧
      ∀ pre c post, acts = pre ++ Action.event (.leaving c) :: post →
        ∃ s1, execAll braodcasterInit pre = some s1 ∧ s1.closed c = false ∧
          c ∉ s.clients ∧ s.queue c = s1.queue c := by
  have frozen : ∀ (acts : List Action) (s s1 : State), execAll s acts = some s1 →
      ∀ c : Handle, s.closed c = true → s1.closed c = true ∧ s1.queue c = s.queue c := by
    intro acts
    induction acts with
    | nil =>
      intro s s1 h c hc
      cases Option.some.inj h
      exact ⟨hc, rfl⟩
    | cons a acts ih =>
      intro s s1 h c hc
      rw [execAll_cons] at h
      obtain ⟨s2, hstep, hrest⟩ := Option.bind_eq_some.1 h
      have hs2 : s2.closed c = true ∧ s2.queue c = s.queue c := by
        cases a with
        | send ch line =>
          cases hch : s.closed ch with
          | true =>
            have hnone : exec s (.send ch line) = none := if_pos hch
            rw [hnone] at hstep
            cases hstep
          | false =>
            have hne : c ≠ ch := fun e => Bool.false_ne_true (hch.symm.trans (e ▸ hc))
            have hsome : exec s (.send ch line) = some _ := chanSend_open line hch
            rw [hsome] at hstep
            cases Option.some.inj hstep
            exact ⟨hc, if_neg hne⟩
        | connClose =>
          cases Option.some.inj hstep
          exact ⟨hc, rfl⟩
        | event e =>
          cases e with
          | messages m =>
            obtain ⟨hopen, rfl⟩ := fanOut_some hstep
            have hmem : c ∉ s.clients := fun hm =>
              Bool.false_ne_true ((hopen c hm).symm.trans hc)
            exact ⟨hc, if_neg hmem⟩
          | entering ch =>
            cases Option.some.inj hstep
            exact ⟨hc, rfl⟩
          | leaving ch =>
            obtain ⟨hch, rfl⟩ := chanClose_some hstep
            have hne : c ≠ ch := fun e => Bool.false_ne_true (hch.symm.trans (e ▸ hc))
            exact ⟨(if_neg hne).trans hc, rfl⟩
      obtain ⟨hc1, hq1⟩ := ih s2 s1 hrest c hs2.1
      exact ⟨hc1, hq1.trans hs2.2⟩
  obtain ⟨s, _, _, hrun, hs, _, _⟩ :=
    execAll_safe acts [] [] braodcasterInit [] safe_init ((List.append_nil acts).symm ▸ hproto)
  refine ⟨s, hrun, fun c hc => (hs.1 c hc).1, ?_⟩
  intro pre c post hsplit
  subst hsplit
  rw [execAll_append] at hrun
  obtain ⟨s1, hpre, hrest⟩ := Option.bind_eq_some.1 hrun
  rw [execAll_cons] at hrest
  obtain ⟨s2, hstep, hpost⟩ := Option.bind_eq_some.1 hrest
  obtain ⟨hopen, rfl⟩ := chanClose_some hstep
  obtain ⟨hcl, hq⟩ := frozen post _ s hpost c (if_pos rfl)
  exact ⟨s1, hpre, hopen, fun hmem => Bool.false_ne_true ((hs.1 c hmem).1.symm.trans hcl), hq⟩

/-- Witness for C10: the sessions of two peers, `a` on handle 0 and `b` on
handle 1, interleaved; `b` connects while `a` is connected and `a` leaves first. -/
theorem protocol_safety_witness :
    ∃ s, execAll braodcasterInit
        ((handleConnection "a" 0 ["hi"]).take 4 ++ (handleConnection "b" 1 []).take 3
          ++ (handleConnection "a" 0 ["hi"]).drop 4 ++ (handleConnection "b" 1 []).drop 3)
          = some s ∧
      (∀ c ∈ s.clients, s.closed c = false) ∧
      ∀ pre c post,
        (handleConnection "a" 0 ["hi"]).take 4 ++ (handleConnection "b" 1 []).take 3
          ++ (handleConnection "a" 0 ["hi"]).drop 4 ++ (handleConnection "b" 1 []).drop 3
          = pre ++ Action.event (.leaving c) :: post →
        ∃ s1, execAll braodcasterInit pre = some s1 ∧ s1.closed c = false ∧
          c ∉ s.clients ∧ s.queue c = s1.queue c :=
  protocol_safety _ (by decide)

/-- C4: in `handleConnection` the arrival announcement is sent before the
handle is registered, and in every run that follows the protocol, with any
actions of other sessions before the announcement and between the announcement
and `entry(h)`, the announcement is processed while `h` is not in the Client Set:
it is appended to the queue of every handle registered at that moment and not to
the queue of `h`, and `h` enters the Client Set only at its `entry(h)`. -/
theorem arrival_not_delivered_to_newcomer (pre mid : List Action) (who : String)
    (h : Handle) (input : List String)
    (hproto : followsProtocol [] []
      (pre ++ (Action.event (.messages (who ++ " has arrived"))
        :: (mid ++ [Action.event (.entering h)]))) = true) :
    (∃ rest, handleConnection who h input
      = Action.send h ("You are " ++ who) :: .event (.messages (who ++ " has arrived"))
          :: .event (.entering h) :: rest) ∧
    ∃ s0 s1 s2 s3, execAll braodcasterInit pre = some s0 ∧
      exec s0 (.event (.messages (who ++ " has arrived"))) = some s1 ∧
      execAll s1 mid = some s2 ∧
      exec s2 (.event (.entering h)) = some s3 ∧
      h ∉ s0.clients ∧
      (∀ c ∈ s0.clients, s1.queue c = s0.queue c ++ [who ++ " has arrived"]) ∧
      s1.queue h = s0.queue h ∧
      h ∉ s2.clients ∧ h ∈ s3.clients := by
  refine ⟨⟨_, rfl⟩, ?_⟩
  obtain ⟨s0, e0, l0, hrun0, hs0, hp0, _⟩ :=
    execAll_safe pre [] [] braodcasterInit _ safe_init hproto
  have hp1 : followsProtocol e0 l0 (mid ++ [Action.event (.entering h)]) = true := hp0
  obtain ⟨s2, e2, l2, hrun2, hs2, hp2, hsub⟩ :=
    execAll_safe mid e0 l0 { s0 with queue := fun c =>
      if c ∈ s0.clients then s0.queue c ++ [who ++ " has arrived"] else s0.queue c }
      _ hs0 hp1
  have hp3 : (decide (h ∉ e2) && decide (h ∉ l2) && followsProtocol (h :: e2) l2 []) = true :=
    hp2
  rw [Bool.and_eq_true, Bool.and_eq_true, decide_eq_true_iff] at hp3
  have hfresh2 : h ∉ s2.clients := fun hm => hp3.1.1 (hs2.1 h hm).2
  have hfresh0 : h ∉ s0.clients := fun hm => hp3.1.1 (hsub h (hs0.1 h hm).2)
  exact ⟨s0, _, s2, _, hrun0, fanOut_open _ fun c hc => (hs0.1 c hc).1, hrun2, rfl, hfresh0,
    fun c hc => if_pos hc, if_neg hfresh0, hfresh2, List.mem_insert_self _ _⟩

/-- Witness for C4: peer `b` (handle 1) connects while peer `a` (handle 0) is
registered; between the announcement of `b` and its entry, `a` sends a line. -/
theorem arrival_not_delivered_to_newcomer_witness :
    (∃ rest, handleConnection "b" 1 []
      = Action.send 1 ("You are " ++ "b") :: .event (.messages ("b" ++ " has arrived"))
          :: .event (.entering 1) :: rest) ∧
    ∃ s0 s1 s2 s3,
      execAll braodcasterInit
        ((handleConnection "a" 0 ["hi"]).take 3 ++ (handleConnection "b" 1 []).take 1)
          = some s0 ∧
      exec s0 (.event (.messages ("b" ++ " has arrived"))) = some s1 ∧
      execAll s1 [Action.event (.messages "a: hi")] = some s2 ∧
      exec s2 (.event (.entering 1)) = some s3 ∧
      1 ∉ s0.clients ∧
      (∀ c ∈ s0.clients, s1.queue c = s0.queue c ++ ["b" ++ " has arrived"]) ∧
      s1.queue 1 = s0.queue 1 ∧
      1 ∉ s2.clients ∧ 1 ∈ s3.clients :=
  arrival_not_delivered_to_newcomer
    ((handleConnection "a" 0 ["hi"]).take 3 ++ (handleConnection "b" 1 []).take 1)
    [Action.event (.messages "a: hi")] "b" 1 [] (by decide)

/-! ## C6: first in, first out for each recipient -/

/-- C6: if the coordinator processes `broadcast(b1)` and later `broadcast(b2)`,
with any actions `mid` in between, and `h` is in the Client Set at both, then on
the queue of `h` the line `b1` is enqueued before `b2`; `clientWriter` writes the
queued lines in enqueue order, each followed by one newline, so `b1` is written
to the connection before `b2`. -/
theorem fifo_per_recipient (s s3 : State) (h : Handle) (b1 b2 : String) (mid : List Action)
    (hmem1 : h ∈ s.clients)
    (hrun : execAll s (Action.event (.messages b1) :: (mid ++ [Action.event (.messages b2)]))
      = some s3)
    (hmem2 : h ∈ s3.clients) :
    ∃ qmid, s3.queue h = s.queue h ++ b1 :: (qmid ++ [b2]) ∧
      (∀ conn, clientWriter conn (s3.queue h)
        = clientWriter conn (s.queue h) ++ (b1 ++ "\n")
            ++ String.join (qmid.map fun msg => msg ++ "\n") ++ (b2 ++ "\n")) ∧
      ∀ conn ch, clientWriter conn ch = conn ++ String.join (ch.map fun msg => msg ++ "\n") := by
  have hjoin : ∀ (ch : List String) (conn : String),
      clientWriter conn ch = conn ++ String.join (ch.map fun msg => msg ++ "\n") := by
    intro ch
    induction ch with
    | nil =>
      intro conn
      exact (String.append_empty conn).symm
    | cons msg ch ih =>
      intro conn
      show clientWriter (Fprintln conn msg) ch = _
      rw [ih]
      apply String.ext
      simp only [Fprintln, String.data_append, String.data_join, List.map_cons, List.map_map,
        List.flatten_cons, List.append_assoc]
  have grows : ∀ (acts : List Action) (t t1 : State), execAll t acts = some t1 →
      ∃ q, t1.queue h = t.queue h ++ q := by
    intro acts
    induction acts with
    | nil =>
      intro t t1 ht
      cases Option.some.inj ht
      exact ⟨[], (List.append_nil _).symm⟩
    | cons a acts ih =>
      intro t t1 ht
      rw [execAll_cons] at ht
      obtain ⟨t2, hstep, hrest⟩ := Option.bind_eq_some.1 ht
      have h2 : ∃ q, t2.queue h = t.queue h ++ q := by
        cases a with
        | send ch line =>
          cases hch : t.closed ch with
          | true =>
            have hnone : exec t (.send ch line) = none := if_pos hch
            rw [hnone] at hstep
            cases hstep
          | false =>
            have hsome : exec t (.send ch line) = some _ := chanSend_open line hch
            rw [hsome] at hstep
            cases Option.some.inj hstep
            by_cases hc : h = ch
            · exact ⟨[line], if_pos hc⟩
            · exact ⟨[], (if_neg hc).trans (List.append_nil _).symm⟩
        | connClose =>
          cases Option.some.inj hstep
          exact ⟨[], (List.append_nil _).symm⟩
        | event e =>
          cases e with
          | messages m =>
            obtain ⟨_, rfl⟩ := fanOut_some hstep
            by_cases hc : h ∈ t.clients
            · exact ⟨[m], if_pos hc⟩
            · exact ⟨[], (if_neg hc).trans (List.append_nil _).symm⟩
          | entering ch =>
            cases Option.some.inj hstep
            exact ⟨[], (List.append_nil _).symm⟩
          | leaving ch =>
            obtain ⟨_, rfl⟩ := chanClose_some hstep
            exact ⟨[], (List.append_nil _).symm⟩
      obtain ⟨q2, hq2⟩ := h2
      obtain ⟨q1, hq1⟩ := ih t2 t1 hrest
      exact ⟨q2 ++ q1, by rw [hq1, hq2, List.append_assoc]⟩
  rw [execAll_cons] at hrun
  obtain ⟨s1, hb1, hrest⟩ := Option.bind_eq_some.1 hrun
  rw [execAll_append] at hrest
  obtain ⟨s2, hmid, hlast⟩ := Option.bind_eq_some.1 hrest
  rw [execAll_cons] at hlast
  obtain ⟨s3a, hb2, hs3a⟩ := Option.bind_eq_some.1 hlast
  cases Option.some.inj hs3a
  obtain ⟨_, hs1⟩ := fanOut_some (s := s) (t := s1) hb1
  obtain ⟨_, hs3⟩ := fanOut_some (s := s2) (t := s3) hb2
  obtain ⟨qmid, hq⟩ := grows mid s1 s2 hmid
  have hq1 : s1.queue h = s.queue h ++ [b1] := by rw [hs1]; exact if_pos hmem1
  have hq3 : s3.queue h = s2.queue h ++ [b2] := by
    rw [hs3] at hmem2 ⊢
    exact if_pos hmem2
  have hqueue : s3.queue h = s.queue h ++ b1 :: (qmid ++ [b2]) := by
    rw [hq3, hq, hq1, List.append_assoc, List.append_assoc]
    rfl
  refine ⟨qmid, hqueue, ?_, fun conn ch => hjoin ch conn⟩
  intro conn
  rw [hqueue, hjoin, hjoin]
  apply String.ext
  simp only [String.data_append, String.data_join, List.map_append, List.map_cons,
    List.flatten_append, List.flatten_cons, List.append_assoc, List.map_nil, List.flatten_nil,
    List.append_nil]

/-- Witness for C6: two lines of peer `a` (handle 0), with the arrival and
registration of peer `b` (handle 1) between them, as received on handle 0. -/
theorem fifo_per_recipient_witness :
    ∃ s3, execAll { clients := [0], queue := fun _ => ["You are a"], closed := fun _ => false }
        (Action.event (.messages "a: x")
          :: ((handleConnection "b" 1 []).take 3 ++ [Action.event (.messages "a: y")]))
        = some s3 ∧
    ∃ qmid, s3.queue 0 = ["You are a"] ++ "a: x" :: (qmid ++ ["a: y"]) ∧
      (∀ conn, clientWriter conn (s3.queue 0)
        = clientWriter conn ["You are a"] ++ ("a: x" ++ "\n")
            ++ String.join (qmid.map fun msg => msg ++ "\n") ++ ("a: y" ++ "\n")) ∧
      ∀ conn ch, clientWriter conn ch = conn ++ String.join (ch.map fun msg => msg ++ "\n") :=
  ⟨_, rfl, fifo_per_recipient
    { clients := [0], queue := fun _ => ["You are a"], closed := fun _ => false } _ 0
    "a: x" "a: y" ((handleConnection "b" 1 []).take 3) (by decide) rfl (by decide)⟩

/-! ## C5: the session of one peer -/

/-- C5: for every peer address `who`, fresh handle `h` and list `input` of
inbound lines, the actions of `handleConnection` are, in this order: the direct
send of `"You are " ++ who` on `h`, `broadcast(who ++ " has arrived")`,
`entry(h)`, `broadcast(who ++ ": " ++ L)` for each line `L` of `input` in input
order, `leave(h)`, `broadcast(who ++ " has left")`, close of the connection. The
welcome line is the first action and no later action is a direct send; run from
a state in which `h` is unregistered and open (and the registered handles are
open), the session puts the welcome line on the queue of `h` before anything
else. -/
theorem handleConnection_session (s : State) (who : String) (h : Handle)
    (input : List String)
    (hfresh : h ∉ s.clients) (hh : s.closed h = false)
    (hopen : ∀ c ∈ s.clients, s.closed c = false) :
    handleConnection who h input
      = [Action.send h ("You are " ++ who),
         Action.event (.messages (who ++ " has arrived")),
         Action.event (.entering h)]
        ++ input.map (fun L => Action.event (.messages (who ++ ": " ++ L)))
        ++ [Action.event (.leaving h),
            Action.event (.messages (who ++ " has left")),
            Action.connClose] ∧
    (∀ ch line, Action.send ch line ∉ (handleConnection who h input).tail) ∧
    ∃ s1, execAll s (handleConnection who h input) = some s1 ∧
      s1.queue h = s.queue h ++ ("You are " ++ who) :: input.map (fun L => who ++ ": " ++ L) ∧
      (∀ c ∈ s.clients, s1.queue c = s.queue c ++ (who ++ " has arrived")
        :: (input.map (fun L => who ++ ": " ++ L) ++ [who ++ " has left"])) ∧
      s1.clients = s.clients ∧ s1.closed h = true := by
  have hmsg : ∀ (m : String) (t : State), (∀ c ∈ t.clients, t.closed c = false) →
      ∃ t1, exec t (.event (.messages m)) = some t1 ∧ t1.clients = t.clients ∧
        t1.closed = t.closed ∧ (∀ c ∈ t.clients, t1.queue c = t.queue c ++ [m]) ∧
        ∀ c, c ∉ t.clients → t1.queue c = t.queue c :=
    fun m t ht => ⟨_, fanOut_open m ht, rfl, rfl, fun _ hc => if_pos hc, fun _ hc => if_neg hc⟩
  have lines : ∀ (input : List String) (t : State) (rest : List Action),
      (∀ c ∈ t.clients, t.closed c = false) →
      ∃ t1, execAll t (scanLoop who input ++ rest) = execAll t1 rest ∧
        t1.clients = t.clients ∧ t1.closed = t.closed ∧
        (∀ c ∈ t.clients, t1.queue c = t.queue c ++ input.map (fun L => who ++ ": " ++ L)) ∧
        ∀ c, c ∉ t.clients → t1.queue c = t.queue c := by
    intro input
    induction input with
    | nil =>
      intro t rest _
      exact ⟨t, rfl, rfl, rfl, fun _ _ => (List.append_nil _).symm, fun _ _ => rfl⟩
    | cons L input ih =>
      intro t rest ht
      obtain ⟨t1, h1, hcl1, hcd1, hin1, hout1⟩ := hmsg (who ++ ": " ++ L) t ht
      obtain ⟨t2, h2, hcl2, hcd2, hin2, hout2⟩ :=
        ih t1 rest (by rw [hcl1, hcd1]; exact ht)
      refine ⟨t2, ?_, hcl2.trans hcl1, hcd2.trans hcd1, ?_, ?_⟩
      · show execAll t (Action.event (.messages (who ++ ": " ++ L))
          :: (scanLoop who input ++ rest)) = _
        rw [execAll_cons, h1, Option.some_bind, h2]
      · intro c hc
        rw [hin2 c (hcl1 ▸ hc), hin1 c hc, List.append_assoc]
        rfl
      · intro c hc
        rw [hout2 c (hcl1 ▸ hc), hout1 c hc]
  have hopenC : ∀ c ∈ s.clients.insert h, s.closed c = false := by
    intro c hc
    rcases List.mem_insert_iff.1 hc with rfl | hc
    · exact hh
    · exact hopen c hc
  have hfilter : (s.clients.insert h).filter (· ≠ h) = s.clients := by
    rw [List.insert_of_not_mem hfresh, List.filter_cons_of_neg (by simp)]
    exact filter_ne_of_not_mem hfresh
  have eA : exec s (.send h ("You are " ++ who)) = some _ := chanSend_open _ hh
  obtain ⟨sB, eB, clB, cdB, qinB, qoutB⟩ := hmsg (who ++ " has arrived")
    ⟨s.clients, fun c => if c = h then s.queue c ++ ["You are " ++ who] else s.queue c,
      s.closed⟩ hopen
  obtain ⟨sD, eD, clD, cdD, qinD, _⟩ := lines input
    ⟨sB.clients.insert h, sB.queue, sB.closed⟩
    [Action.event (.leaving h), Action.event (.messages (who ++ " has left")),
      Action.connClose]
    (by rw [clB, cdB]; exact hopenC)
  have hhD : sD.closed h = false := by
    rw [cdD]
    show sB.closed h = false
    rw [cdB]
    exact hh
  have eE : exec sD (.event (.leaving h)) = some _ :=
    chanClose_open (s := ⟨sD.clients.filter (· ≠ h), sD.queue, sD.closed⟩) hhD
  have hclE : sD.clients.filter (· ≠ h) = s.clients := by
    rw [clD]
    show (sB.clients.insert h).filter (· ≠ h) = s.clients
    rw [clB]
    exact hfilter
  obtain ⟨sF, eF, clF, cdF, qinF, qoutF⟩ := hmsg (who ++ " has left")
    ⟨sD.clients.filter (· ≠ h), sD.queue, fun c => if c = h then true else sD.closed c⟩
    (by
      intro c hc
      have hne : c ≠ h := (mem_filter_ne.1 hc).1
      have hc1 : c ∈ sD.clients := (mem_filter_ne.1 hc).2
      rw [clD] at hc1
      show (if c = h then true else sD.closed c) = false
      rw [if_neg hne, cdD]
      show sB.closed c = false
      rw [cdB]
      exact hopenC c (clB ▸ hc1))
  have hrun : execAll s (handleConnection who h input) = some sF := by
    show execAll s (Action.send h ("You are " ++ who)
      :: Action.event (.messages (who ++ " has arrived")) :: Action.event (.entering h)
      :: (scanLoop who input ++ [Action.event (.leaving h),
            Action.event (.messages (who ++ " has left")), Action.connClose])) = _
    rw [execAll_cons, eA, Option.some_bind, execAll_cons, eB, Option.some_bind, execAll_cons]
    show execAll ⟨sB.clients.insert h, sB.queue, sB.closed⟩ _ = _
    rw [eD, execAll_cons, eE, Option.some_bind, execAll_cons, eF, Option.some_bind]
    rfl
  refine ⟨rfl, ?_, sF, hrun, ?_, ?_, ?_, ?_⟩
  · intro ch line hmem
    have hmem1 : Action.send ch line ∈ Action.event (.messages (who ++ " has arrived"))
        :: Action.event (.entering h)
        :: (List.map (fun L => Action.event (.messages (who ++ ": " ++ L))) input
            ++ [Action.event (.leaving h), Action.event (.messages (who ++ " has left")),
                Action.connClose]) := hmem
    simp only [List.mem_cons, List.mem_append, List.mem_map, List.mem_singleton, reduceCtorEq,
      and_false, exists_false, false_or, or_false, List.not_mem_nil] at hmem1
  · have h1 : sF.queue h = sD.queue h :=
      qoutF h (fun hm => (mem_filter_ne.1 hm).1 rfl)
    have h2 : sD.queue h = sB.queue h ++ input.map (fun L => who ++ ": " ++ L) :=
      qinD h (List.mem_insert_self _ _)
    have h3 : sB.queue h = s.queue h ++ ["You are " ++ who] :=
      (qoutB h hfresh).trans (if_pos rfl)
    rw [h1, h2, h3, List.append_assoc]
    rfl
  · intro c hc
    have hne : c ≠ h := fun e => hfresh (e ▸ hc)
    have h1 : sF.queue c = sD.queue c ++ [who ++ " has left"] :=
      qinF c (hclE.symm ▸ hc)
    have h2 : sD.queue c = sB.queue c ++ input.map (fun L => who ++ ": " ++ L) :=
      qinD c (List.mem_insert_of_mem (clB.symm ▸ hc))
    have h3 : sB.queue c = s.queue c ++ [who ++ " has arrived"] :=
      (qinB c hc).trans (congrArg (· ++ [who ++ " has arrived"]) (if_neg hne))
    rw [h1, h2, h3, List.append_assoc, List.append_assoc]
    rfl
  · exact clF.trans hclE
  · rw [cdF]
    exact if_pos rfl

/-- Witness for C5: peer `b` connects on the fresh handle 1 while handle 0 is
registered, sends two lines and disconnects. -/
theorem handleConnection_session_witness :
    handleConnection "b" 1 ["hi", "yo"]
      = [Action.send 1 ("You are " ++ "b"),
         Action.event (.messages ("b" ++ " has arrived")),
         Action.event (.entering 1)]
        ++ ["hi", "yo"].map (fun L => Action.event (.messages ("b" ++ ": " ++ L)))
        ++ [Action.event (.leaving 1),
            Action.event (.messages ("b" ++ " has left")),
            Action.connClose] ∧
    (∀ ch line, Action.send ch line ∉ (handleConnection "b" 1 ["hi", "yo"]).tail) ∧
    ∃ s1, execAll { clients := [0], queue := fun _ => [], closed := fun _ => false }
        (handleConnection "b" 1 ["hi", "yo"]) = some s1 ∧
      s1.queue 1 = [] ++ ("You are " ++ "b") :: ["hi", "yo"].map (fun L => "b" ++ ": " ++ L) ∧
      (∀ c ∈ [0], s1.queue c = [] ++ ("b" ++ " has arrived")
          :: (["hi", "yo"].map (fun L => "b" ++ ": " ++ L) ++ ["b" ++ " has left"])) ∧
      s1.clients = [0] ∧ s1.closed 1 = true :=
  handleConnection_session
    { clients := [0], queue := fun _ => [], closed := fun _ => false } "b" 1 ["hi", "yo"]
    (by decide) rfl (fun _ _ => rfl)

/-- The protocol is the one `handleConnection` follows: the actions of one
session on a handle that has been neither registered nor removed follow it. -/
theorem handleConnection_followsProtocol (entered left : List Handle) (who : String)
    (h : Handle) (input : List String) (hent : h ∉ entered) (hleft : h ∉ left) :
    followsProtocol entered left (handleConnection who h input) = true := by
  have lines : ∀ (input : List String) (e l : List Handle) (rest : List Action),
      followsProtocol e l (scanLoop who input ++ rest) = followsProtocol e l rest := by
    intro input
    induction input with
    | nil => intro e l rest; rfl
    | cons L input ih => intro e l rest; exact ih e l rest
  show (decide (h ∉ entered) && decide (h ∉ left)
    && (decide (h ∉ entered) && decide (h ∉ left)
      && followsProtocol (h :: entered) left (scanLoop who input
        ++ [Action.event (.leaving h), Action.event (.messages (who ++ " has left")),
            Action.connClose]))) = true
  rw [lines]
  show (decide (h ∉ entered) && decide (h ∉ left)
    && (decide (h ∉ entered) && decide (h ∉ left)
      && (decide (h ∈ h :: entered) && decide (h ∉ left) && true))) = true
  rw [decide_eq_true hent, decide_eq_true hleft, decide_eq_true (List.mem_cons_self h entered)]
  rfl

end Onychat
